import Mathlib

/-!
Shallow embedding of the Fulcrum load balancer's backend pool and dispatch
engine (Go sources: `main.go`, `pool/backend.go`, the pool's server-pool file,
and the config loader).

Modelling conventions:
* Go `*Backend` pointers are modelled as indices (`Nat`) into a heap
  `ServerPool.store : List Backend`; the pool's slot list
  `ServerPool.backends : List Nat` holds those indices, so duplicate slots
  sharing one pointer are duplicate indices referring to one record.
* `uint64` arithmetic wraps modulo `2 ^ 64`; `int64` wraps into
  `[-2 ^ 63, 2 ^ 63)`.
* The reverse-proxy engine and the network are external: a request's transport
  outcome on a given origin URL is an oracle `behav : String → Outcome`, and
  the prober's TCP dial is an oracle `reach : String → Bool`.
* `sync` primitives disappear in this sequential interleaving model; atomic
  read-modify-writes become plain functional updates.
-/

/-- Go `uint64` addition wraps modulo `2 ^ 64` (`atomic.AddUint64`). -/
def addUint64 (x y : Nat) : Nat := (x + y) % 2 ^ 64

/-- Go `int64` values live in `[-2 ^ 63, 2 ^ 63)`; `wrap64` normalizes into
that range. -/
def wrap64 (x : Int) : Int := (x + 2 ^ 63) % 2 ^ 64 - 2 ^ 63

/-- Go `int64` addition with two's-complement wraparound
(`atomic.AddInt64`). -/
def addInt64 (x y : Int) : Int := wrap64 (x + y)

/-- `pool.RetryAttempts` from `pool/backend.go`. -/
def RetryAttempts : Nat := 3

/-- `pool.Backend` from `pool/backend.go`. The `ReverseProxy` handle and the
`Mux` lock are omitted: the proxy is modelled by the outcome oracle and the
model is a sequential interleaving. `URL` is the Go `url.URL` rendered by
`String()`. -/
structure Backend where
  Name : String
  URL : String
  Alive : Bool
  ActiveConnections : Int
  TotalRequests : Nat
  FailedRequests : Nat
  ConsecutiveFailures : Nat
deriving DecidableEq, Repr, Inhabited

/-- `Backend.SetAlive` from `pool/backend.go`. -/
def Backend.SetAlive (backend : Backend) (alive : Bool) : Backend :=
  { backend with Alive := alive }

/-- `Backend.IsAlive` from `pool/backend.go`. -/
def Backend.IsAlive (backend : Backend) : Bool :=
  backend.Alive

/-- `pool.ServerPool`: `store` is the heap of `Backend` records (pointer
targets), `backends` the slot list of pointers (`[]*Backend`), `current` the
`uint64` round-robin cursor. -/
structure ServerPool where
  store : List Backend
  backends : List Nat
  current : Nat
deriving DecidableEq, Repr, Inhabited

/-- Well-formedness: every slot pointer refers into the heap. This holds for
every pool built by the program (slots are only appended with fresh valid
pointers). -/
def ServerPool.WF (p : ServerPool) : Prop :=
  ∀ ptr ∈ p.backends, ptr < p.store.length

instance (p : ServerPool) : Decidable p.WF := by
  unfold ServerPool.WF; infer_instance

/-- Dereference a pointer (store index). -/
def ServerPool.deref (p : ServerPool) (ptr : Nat) : Option Backend :=
  p.store[ptr]?

/-- The backend referred to by slot `i` of the slot list. -/
def ServerPool.slotBackend (p : ServerPool) (i : Nat) : Option Backend :=
  match p.backends[i]? with
  | some ptr => p.store[ptr]?
  | none => none

/-- `serverPool.backends[idx].IsAlive()` for slot index `idx`. -/
def ServerPool.slotAlive (p : ServerPool) (i : Nat) : Bool :=
  match p.slotBackend i with
  | some b => b.IsAlive
  | none => false

/-- The URL string of the record a pointer refers to (`b.URL.String()`). -/
def urlOf (p : ServerPool) (ptr : Nat) : String :=
  match p.store[ptr]? with
  | some b => b.URL
  | none => ""

/-- In-place update of the record at one store index (a write through a Go
pointer). -/
def updateAt : List Backend → Nat → (Backend → Backend) → List Backend
  | [], _, _ => []
  | b :: l, 0, f => f b :: l
  | b :: l, n + 1, f => b :: updateAt l n f

/-- Apply a record update through a pointer. -/
def ServerPool.updateStore (p : ServerPool) (ptr : Nat) (f : Backend → Backend) :
    ServerPool :=
  { p with store := updateAt p.store ptr f }

/-- `ServerPool.AddBackend`: append a slot holding an existing pointer. -/
def ServerPool.AddBackend (p : ServerPool) (ptr : Nat) : ServerPool :=
  { p with backends := p.backends ++ [ptr] }

/-- The scan loop of `GetNextPeer`: Go's `for i := next; i < l; i++` with
`idx := i % len(backends)`, carrying the offset `j = i - next` and the
remaining iteration count. Returns the offset and slot index of the first
live slot. -/
def scanAlive (p : ServerPool) (next : Nat) : Nat → Nat → Option (Nat × Nat)
  | _, 0 => none
  | j, fuel + 1 =>
    let idx := (next + j) % p.backends.length
    if p.slotAlive idx then some (j, idx) else scanAlive p next (j + 1) fuel

/-- `ServerPool.GetNextPeer` (round robin): atomically increment the cursor
(`nextIndex`), scan up to `N` slots from `cursor mod N`, return the first live
slot; when found at an index other than the starting one, store that index
back into the cursor. Returns the found slot index together with the updated
pool. (For an empty slot list the Go code divides by zero; theorems assume a
nonempty pool.) -/
def ServerPool.GetNextPeer (p : ServerPool) : Option Nat × ServerPool :=
  let cur := addUint64 p.current 1
  let next := cur % p.backends.length
  let p1 := { p with current := cur }
  match scanAlive p next 0 p.backends.length with
  | some (j, idx) =>
    (some idx, if j ≠ 0 then { p1 with current := idx } else p1)
  | none => (none, p1)

/-- One iteration of the `GetNextPeerLeastConnections` loop: skip dead
backends, replace the best peer exactly when the accumulator is empty or the
connection count is strictly smaller (`bestPeer == nil || conn < minConns`).
The accumulator mirrors Go's `(bestPeer, minConns)`, initially `(nil, -1)`. -/
def lcStep (p : ServerPool) (acc : Option Nat × Int) (ptr : Nat) :
    Option Nat × Int :=
  match p.store[ptr]? with
  | none => acc
  | some backend =>
    if backend.IsAlive = false then acc
    else
      let conn := backend.ActiveConnections
      if acc.1 = none ∨ conn < acc.2 then (some ptr, conn) else acc

/-- The `GetNextPeerLeastConnections` loop over an arbitrary slot list. -/
def lcScan (p : ServerPool) (slots : List Nat) : Option Nat × Int :=
  slots.foldl (lcStep p) (none, -1)

/-- `ServerPool.GetNextPeerLeastConnections`: returns the pointer of the live
backend with the fewest active connections, iterating the (duplicated) slot
list. -/
def ServerPool.GetNextPeerLeastConnections (p : ServerPool) : Option Nat :=
  (lcScan p p.backends).1

/-- `ServerPool.GetBackend`: first slot whose backend's URL string equals the
given one; returns the pointer. -/
def ServerPool.GetBackend (p : ServerPool) (u : String) : Option Nat :=
  p.backends.find? (fun ptr => urlOf p ptr == u)

/-- `ServerPool.MarkBackendStatus`: `SetAlive` on the first slot whose URL
matches, then break; no effect when no slot matches. -/
def ServerPool.MarkBackendStatus (p : ServerPool) (u : String) (alive : Bool) :
    ServerPool :=
  match p.backends.find? (fun ptr => urlOf p ptr == u) with
  | some ptr => p.updateStore ptr (fun b => b.SetAlive alive)
  | none => p

/-- `ServerPool.HealthCheck`: for each slot in order, `SetAlive` with the
result of the TCP dial to the backend's URL (`isBackendAlive`, abstracted by
the reachability oracle `reach`). -/
def ServerPool.HealthCheck (p : ServerPool) (reach : String → Bool) :
    ServerPool :=
  { p with
    store :=
      p.backends.foldl
        (fun st ptr => updateAt st ptr (fun b => b.SetAlive (reach b.URL)))
        p.store }

/-- `proxy.ModifyResponse` from `main.go`, for the proxy closed over origin
URL `u`, observing response status `status`: on a 5xx, increment the origin's
`ConsecutiveFailures` and kill it when the post-increment value reaches 3;
otherwise reset `ConsecutiveFailures` to 0. -/
def ServerPool.ModifyResponse (p : ServerPool) (u : String) (status : Nat) :
    ServerPool :=
  if 500 ≤ status then
    match p.GetBackend u with
    | some ptr =>
      p.updateStore ptr (fun b =>
        let failures := addUint64 b.ConsecutiveFailures 1
        let b1 := { b with ConsecutiveFailures := failures }
        if 3 ≤ failures then b1.SetAlive false else b1)
    | none => p
  else
    match p.GetBackend u with
    | some ptr => p.updateStore ptr (fun b => { b with ConsecutiveFailures := 0 })
    | none => p

/-- The state effects at the head of `proxy.ErrorHandler` in `main.go`, for
the proxy closed over origin URL `u`: increment the origin's
`FailedRequests` (when `GetBackend` finds it) and mark it not alive. -/
def ServerPool.errorMark (p : ServerPool) (u : String) : ServerPool :=
  let p1 :=
    match p.GetBackend u with
    | some ptr =>
      p.updateStore ptr
        (fun b => { b with FailedRequests := addUint64 b.FailedRequests 1 })
    | none => p
  p1.MarkBackendStatus u false

/-- Transport outcome of handing a request to the proxy bound to a given
origin URL: either a response with an HTTP status, or a transport error
(which triggers `ErrorHandler`). -/
inductive Outcome where
  | ok (status : Nat)
  | fail
deriving DecidableEq, Repr

/-- What the client ends up receiving. -/
inductive Resp where
  | served (status : Nat) (u : String)
  | noService
  | allFailed
deriving DecidableEq, Repr

/-- `peer.ReverseProxy.ServeHTTP` together with the retry protocol of
`proxy.ErrorHandler`. The fuel is `RetryAttempts - retries`, so Go's guard
`retries < RetryAttempts` is exactly `fuel > 0` and the recursive call at
`retries + 1` runs at fuel `fuel - 1`. Returns the final pool, the client's
response, and the number of dispatch attempts performed (this invocation
included). On a transport error: count the failure on the origin, kill it,
and when retries remain pick a replacement by round robin and re-dispatch;
otherwise write `503 [all backends failed]`. -/
def proxyServe (behav : String → Outcome) :
    Nat → ServerPool → String → ServerPool × Resp × Nat
  | fuel, p, u =>
    match behav u with
    | .ok status => (p.ModifyResponse u status, .served status u, 1)
    | .fail =>
      let p1 := p.errorMark u
      match fuel with
      | fuel' + 1 =>
        match p1.GetNextPeer with
        | (some idx, p2) =>
          let u2 :=
            match p2.slotBackend idx with
            | some b => b.URL
            | none => ""
          let r := proxyServe behav fuel' p2 u2
          (r.1, r.2.1, r.2.2 + 1)
        | (none, p2) => (p2, .allFailed, 1)
      | 0 => (p1, .allFailed, 1)

/-- Increment of the chosen peer's `ActiveConnections` in `lbHandler`. -/
def incActive (p : ServerPool) (ptr : Nat) : ServerPool :=
  p.updateStore ptr
    (fun b => { b with ActiveConnections := addInt64 b.ActiveConnections 1 })

/-- Increment of the chosen peer's `TotalRequests` in `lbHandler`. -/
def incTotal (p : ServerPool) (ptr : Nat) : ServerPool :=
  p.updateStore ptr
    (fun b => { b with TotalRequests := addUint64 b.TotalRequests 1 })

/-- The deferred decrement of the chosen peer's `ActiveConnections` in
`lbHandler`. -/
def decActive (p : ServerPool) (ptr : Nat) : ServerPool :=
  p.updateStore ptr
    (fun b => { b with ActiveConnections := addInt64 b.ActiveConnections (-1) })

/-- `lbHandler` from `main.go`: select by least connections (503
`Service not available` when none), increment the peer's counters, dispatch
with retry counter 0 (fuel `RetryAttempts`), and finally run the deferred
`ActiveConnections` decrement on the originally selected peer. Also returns
the number of dispatch attempts. -/
def lbHandler (behav : String → Outcome) (p : ServerPool) :
    ServerPool × Resp × Nat :=
  match p.GetNextPeerLeastConnections with
  | some ptr =>
    let p2 := incTotal (incActive p ptr) ptr
    let r := proxyServe behav RetryAttempts p2 (urlOf p2 ptr)
    (decActive r.1 ptr, r.2.1, r.2.2)
  | none => (p, .noService, 0)

/-- The successive pool states produced inside `proxyServe`, in order: after
each state-mutating step (breaker update, error marking, round-robin cursor
update, and recursively for each retry). -/
def proxyServeTrace (behav : String → Outcome) :
    Nat → ServerPool → String → List ServerPool
  | fuel, p, u =>
    match behav u with
    | .ok status => [p.ModifyResponse u status]
    | .fail =>
      let p1 := p.errorMark u
      match fuel with
      | fuel' + 1 =>
        match p1.GetNextPeer with
        | (some idx, p2) =>
          let u2 :=
            match p2.slotBackend idx with
            | some b => b.URL
            | none => ""
          p1 :: p2 :: proxyServeTrace behav fuel' p2 u2
        | (none, p2) => [p1, p2]
      | 0 => [p1]

/-- Every pool state observable while `lbHandler` services one request:
initial, after the two counter increments, each state inside the dispatch,
and after the deferred decrement. -/
def lbTrace (behav : String → Outcome) (p : ServerPool) : List ServerPool :=
  match p.GetNextPeerLeastConnections with
  | some ptr =>
    let p1 := incActive p ptr
    let p2 := incTotal p1 ptr
    p :: p1 :: p2 :: proxyServeTrace behav RetryAttempts p2 (urlOf p2 ptr)
      ++ [(lbHandler behav p).1]
  | none => [p]

/-- The record list `json.NewEncoder(w).Encode(s.Backends)` marshals on
`GET /?format=json` in the dashboard: the slot list itself, each pointer
dereferenced. -/
def ServerPool.ServeDashboardJson (p : ServerPool) : List Backend :=
  p.backends.filterMap (fun ptr => p.store[ptr]?)

/-- The `seen`-map loop of the dashboard's HTML branch: keep a slot's backend
only when its URL was not rendered before. -/
def dedupSeen : List Backend → List String → List Backend
  | [], _ => []
  | b :: rest, seen =>
    if b.URL ∈ seen then dedupSeen rest seen
    else b :: dedupSeen rest (b.URL :: seen)

/-- The backends rendered as cards by the dashboard's HTML branch
(deduplicated by URL via the `seen` map). -/
def ServerPool.ServeDashboardHtml (p : ServerPool) : List Backend :=
  dedupSeen p.ServeDashboardJson []

/-- `config.BackendConfig` from the config package; a missing `weight` field
decodes to the zero value `0`. -/
structure BackendConfig where
  URL : String
  Name : String
  Weight : Int
deriving DecidableEq, Repr

/-- The `pool.Backend` literal built in `main`: constructed alive with all
counters zero. -/
def mkBackend (c : BackendConfig) : Backend :=
  { Name := c.Name, URL := c.URL, Alive := true, ActiveConnections := 0,
    TotalRequests := 0, FailedRequests := 0, ConsecutiveFailures := 0 }

/-- One iteration of the configuration loop in `main` (`main.go`): default
the weight to 1 exactly when it equals 0, allocate the backend record, and
append one slot per loop iteration of `for i := 0; i < weight; i++`. -/
def configureBackend (p : ServerPool) (c : BackendConfig) : ServerPool :=
  let weight : Int := if c.Weight = 0 then 1 else c.Weight
  let ptr := p.store.length
  let p1 := { p with store := p.store ++ [mkBackend c] }
  { p1 with backends := p1.backends ++ List.replicate weight.toNat ptr }

/-- Pool construction in `main`: fold the configuration loop over the
configured backends, starting from the zero-value `&pool.ServerPool{}`. -/
def buildPool (cfgs : List BackendConfig) : ServerPool :=
  cfgs.foldl configureBackend { store := [], backends := [], current := 0 }

/-- The liveness-mutating entry points of the running system: servicing one
client request (with its transport oracle), or one prober sweep (with its
reachability oracle). -/
inductive SysEvent where
  | request (behav : String → Outcome)
  | healthTick (reach : String → Bool)

/-- Effect of one system event on the pool. -/
def sysStep (e : SysEvent) (p : ServerPool) : ServerPool :=
  match e with
  | .request behav => (lbHandler behav p).1
  | .healthTick reach => p.HealthCheck reach

/-- No revival happened between pool `p` and pool `q`: every record alive in
`q` was already alive in `p`. -/
def noRevive (p q : ServerPool) : Prop :=
  ∀ (t : Nat) (b2 : Backend), q.store[t]? = some b2 → b2.Alive = true →
    ∃ b, p.store[t]? = some b ∧ b.Alive = true

/-- Pools `p` and `q` carry identical `ActiveConnections` at every pointer:
no connection counter differs between the two states. -/
def acEq (p q : ServerPool) : Prop :=
  ∀ t : Nat, (q.store[t]?).map Backend.ActiveConnections =
    (p.store[t]?).map Backend.ActiveConnections

/-- A four-backend configuration (weights absent), used for the
exhausted-retries scenario. -/
def poolS4 : ServerPool :=
  buildPool [⟨"uA", "A", 0⟩, ⟨"uB", "B", 0⟩, ⟨"uC", "C", 0⟩, ⟨"uD", "D", 0⟩]

/-- Transport oracle where every backend refuses connections. -/
def behavAllFail : String → Outcome := fun _ => Outcome.fail

/-- The two-backend configuration of scenario S3. -/
def poolS3 : ServerPool := buildPool [⟨"uA", "A", 0⟩, ⟨"uB", "B", 0⟩]

/-- Scenario S3's transport oracle: A's listener is down, B serves 200. -/
def behavS3 : String → Outcome :=
  fun u => if u == "uA" then Outcome.fail else Outcome.ok 200

/-- A single backend configured with weight 2 (two slots for one record). -/
def poolW2 : ServerPool := buildPool [⟨"u1", "b1", 2⟩]

/-- The slot blocks appended by the configuration loop when the heap already
holds `base` records: configuration `j` of the list contributes a block of
consecutive slots all holding pointer `base + j`, of size given by its
defaulted weight. -/
def blocks (base : Nat) : List BackendConfig → List Nat
  | [] => []
  | c :: rest =>
    List.replicate (if c.Weight = 0 then (1 : Int) else c.Weight).toNat base
      ++ blocks (base + 1) rest

/-- The iteration order prescribed by the spec's least-connections contract:
distinct backends only, deduplicated by URL string, in first-seen order. -/
def distinctByUrl (p : ServerPool) : List Nat → List String → List Nat
  | [], _ => []
  | ptr :: rest, seen =>
    if urlOf p ptr ∈ seen then distinctByUrl p rest seen
    else ptr :: distinctByUrl p rest (urlOf p ptr :: seen)

/-- Liveness read through a pointer (`backend.IsAlive()` on the record the
pointer refers to; false for a dangling pointer). -/
def ptrAlive (p : ServerPool) (ptr : Nat) : Bool :=
  match p.store[ptr]? with
  | some b => b.IsAlive
  | none => false

/-- `ActiveConnections` read through a pointer (0 for a dangling pointer). -/
def ptrConns (p : ServerPool) (ptr : Nat) : Int :=
  match p.store[ptr]? with
  | some b => b.ActiveConnections
  | none => 0

/-! ## Heap update lemmas -/

theorem updateAt_length (l : List Backend) (i : Nat) (f : Backend → Backend) :
    (updateAt l i f).length = l.length := by
  induction l generalizing i with
  | nil => rfl
  | cons b rest ih =>
    cases i with
    | zero => rfl
    | succ n => simp [updateAt, ih]

theorem updateAt_getElem? (l : List Backend) (i : Nat) (f : Backend → Backend)
    (j : Nat) :
    (updateAt l i f)[j]? = if j = i then (l[i]?).map f else l[j]? := by
  induction l generalizing i j with
  | nil => simp [updateAt]
  | cons b rest ih =>
    cases i with
    | zero =>
      cases j with
      | zero => simp [updateAt]
      | succ m => simp [updateAt]
    | succ n =>
      cases j with
      | zero => simp [updateAt]
      | succ m => simpa [updateAt, Nat.succ_ne_zero] using ih n m

/-! ## C1: total dispatch attempts -/

/-- C1 counterexample: with four configured backends all refusing
connections, servicing one incoming request performs 4 dispatch attempts,
contradicting the claimed total of at most 3. -/
theorem c1_counterexample :
    (lbHandler behavAllFail poolS4).2.2 = 4 ∧
      ¬ (lbHandler behavAllFail poolS4).2.2 ≤ 3 := by
  decide

theorem proxyServe_attempts_le (behav : String → Outcome) :
    ∀ (fuel : Nat) (p : ServerPool) (u : String),
      (proxyServe behav fuel p u).2.2 ≤ fuel + 1 := by
  intro fuel
  induction fuel with
  | zero =>
    intro p u
    unfold proxyServe
    cases behav u <;> simp
  | succ n ih =>
    intro p u
    unfold proxyServe
    cases hb : behav u with
    | ok s => simp
    | fail =>
      simp only
      cases hg : (p.errorMark u).GetNextPeer with
      | mk o p2 =>
        cases o with
        | some idx =>
          simpa using Nat.succ_le_succ (ih p2 _)
        | none => simp

/-- C1 (amended): the retry protocol performs at most
`RetryAttempts + 1 = 4` dispatch attempts per incoming request (one initial
dispatch plus up to 3 retries); the transport-error callback at retry count
`≥ MAX_ATTEMPTS = 3` (fuel 0), and likewise when no live replacement exists,
writes the 503 all-backends-failed response and does not re-dispatch. -/
theorem c1_retry_bound (behav : String → Outcome) (p : ServerPool) :
    (lbHandler behav p).2.2 ≤ RetryAttempts + 1 ∧
    (∀ (q : ServerPool) (u : String), behav u = .fail →
      proxyServe behav 0 q u = (q.errorMark u, .allFailed, 1)) ∧
    (∀ (fuel : Nat) (q q2 : ServerPool) (u : String), behav u = .fail →
      (q.errorMark u).GetNextPeer = (none, q2) →
      proxyServe behav (fuel + 1) q u = (q2, .allFailed, 1)) := by
  refine ⟨?_, ?_, ?_⟩
  · unfold lbHandler
    cases p.GetNextPeerLeastConnections with
    | some ptr => simpa using proxyServe_attempts_le behav RetryAttempts _ _
    | none => simp
  · intro q u hu
    unfold proxyServe
    rw [hu]
  · intro fuel q q2 u hu hg
    unfold proxyServe
    rw [hu]
    simp only [hg]

theorem c1_retry_bound_witness :
    (lbHandler behavAllFail poolS4).2.2 ≤ RetryAttempts + 1 :=
  (c1_retry_bound behavAllFail poolS4).1

/-! ## C2: transport failover scenario -/

/-- C2 counterexample: in scenario S3 (A down, B alive, one request) the
replacement backend B serves the response but its `TotalRequests` counter is
0, not 1 as the claim states — the retry path never increments the
replacement's counters. -/
theorem c2_counterexample :
    ((lbHandler behavS3 poolS3).1.store[1]?).map Backend.TotalRequests
        = some 0 ∧
      ((lbHandler behavS3 poolS3).1.store[1]?).map Backend.TotalRequests
        ≠ some 1 := by
  decide

/-- C2 (amended): in the transport-failover scenario the client receives a
200 served by B, A's `FailedRequests` is 1, A is Dead, A's `TotalRequests`
is 1 (the initial selection), and B's `TotalRequests` is 0 — the retry path
does not count the replacement; B stays alive. -/
theorem c2_transport_failover :
    (lbHandler behavS3 poolS3).2.1 = Resp.served 200 "uB" ∧
    ((lbHandler behavS3 poolS3).1.store[0]?).map Backend.FailedRequests
      = some 1 ∧
    ((lbHandler behavS3 poolS3).1.store[0]?).map Backend.Alive = some false ∧
    ((lbHandler behavS3 poolS3).1.store[0]?).map Backend.TotalRequests
      = some 1 ∧
    ((lbHandler behavS3 poolS3).1.store[1]?).map Backend.TotalRequests
      = some 0 ∧
    ((lbHandler behavS3 poolS3).1.store[1]?).map Backend.Alive = some true := by
  decide

/-! ## C3: introspection endpoint -/

/-- C3 counterexample: a backend configured with weight 2 occupies two slots,
and the JSON body lists it twice — the JSON array is not deduplicated by
URL. -/
theorem c3_counterexample :
    poolW2.ServeDashboardJson.map Backend.URL = ["u1", "u1"] ∧
      ¬ (poolW2.ServeDashboardJson.map Backend.URL).Nodup := by
  decide

theorem filterMap_deref_getElem? (st : List Backend) :
    ∀ (slots : List Nat), (∀ s ∈ slots, s < st.length) →
      ∀ j : Nat,
        (slots.filterMap (fun ptr => st[ptr]?))[j]? =
          match slots[j]? with
          | some ptr => st[ptr]?
          | none => none := by
  intro slots
  induction slots with
  | nil => intro _ j; simp
  | cons a l ih =>
    intro h j
    have ha : a < st.length := h a (List.mem_cons_self a l)
    have hb : st[a]? = some st[a] := List.getElem?_eq_getElem ha
    have hl : ∀ s ∈ l, s < st.length := fun s hs => h s (List.mem_cons_of_mem a hs)
    cases j with
    | zero => simp [List.filterMap_cons, hb]
    | succ m => simpa [List.filterMap_cons, hb] using ih hl m

theorem filterMap_deref_length (st : List Backend) :
    ∀ (slots : List Nat), (∀ s ∈ slots, s < st.length) →
      (slots.filterMap (fun ptr => st[ptr]?)).length = slots.length := by
  intro slots
  induction slots with
  | nil => intro _; rfl
  | cons a l ih =>
    intro h
    have ha : a < st.length := h a (List.mem_cons_self a l)
    have hb : st[a]? = some st[a] := List.getElem?_eq_getElem ha
    have hl : ∀ s ∈ l, s < st.length := fun s hs => h s (List.mem_cons_of_mem a hs)
    simp [List.filterMap_cons, hb, ih hl]

theorem dedupSeen_nodup :
    ∀ (l : List Backend) (seen : List String),
      ((dedupSeen l seen).map Backend.URL).Nodup ∧
        ∀ u ∈ (dedupSeen l seen).map Backend.URL, u ∉ seen := by
  intro l
  induction l with
  | nil => intro seen; simp [dedupSeen]
  | cons b rest ih =>
    intro seen
    by_cases hb : b.URL ∈ seen
    · have := ih seen
      simpa [dedupSeen, hb] using this
    · obtain ⟨h1, h2⟩ := ih (b.URL :: seen)
      simp only [dedupSeen]
      rw [if_neg hb]
      refine ⟨?_, ?_⟩
      · rw [List.map_cons, List.nodup_cons]
        exact ⟨fun hmem => (h2 _ hmem) (List.mem_cons_self _ _), h1⟩
      · intro u hu
        rw [List.map_cons] at hu
        rcases List.mem_cons.mp hu with rfl | hu
        · exact hb
        · intro hus
          exact (h2 u hu) (List.mem_cons_of_mem _ hus)

/-- C3 (amended): the JSON introspection body contains one snapshot per pool
slot, in slot order — a backend occupying w weighted slots appears w times,
so the JSON array is *not* deduplicated by URL; each snapshot is the full
backend record (name, URL, liveness and the four counters). Deduplication by
URL happens only in the HTML dashboard view. -/
theorem c3_dashboard_snapshot (p : ServerPool) (h : p.WF) :
    p.ServeDashboardJson.length = p.backends.length ∧
    (∀ j : Nat, p.ServeDashboardJson[j]? = p.slotBackend j) ∧
    (p.ServeDashboardHtml.map Backend.URL).Nodup := by
  refine ⟨filterMap_deref_length p.store p.backends h, ?_, ?_⟩
  · intro j
    have := filterMap_deref_getElem? p.store p.backends h j
    simpa [ServerPool.ServeDashboardJson, ServerPool.slotBackend] using this
  · exact (dedupSeen_nodup p.ServeDashboardJson []).1

theorem c3_dashboard_snapshot_witness :
    poolW2.WF ∧ poolW2.ServeDashboardJson.length = poolW2.backends.length :=
  ⟨by decide, (c3_dashboard_snapshot poolW2 (by decide)).1⟩

/-! ## C9: configured weights and slot counts -/

/-- C9 counterexample: a backend configured with weight -1 occupies zero
slots — the code only defaults a weight equal to 0, so a negative weight is
not replaced by 1 and the slot loop runs zero times. -/
theorem c9_counterexample :
    (buildPool [⟨"u", "b", -1⟩]).backends.count 0 = 0 ∧
      (buildPool [⟨"u", "b", -1⟩]).backends.count 0 ≠ 1 := by
  decide

theorem foldl_configure (cfgs : List BackendConfig) :
    ∀ (p : ServerPool),
      (cfgs.foldl configureBackend p).store = p.store ++ cfgs.map mkBackend ∧
      (cfgs.foldl configureBackend p).backends =
        p.backends ++ blocks p.store.length cfgs := by
  induction cfgs with
  | nil => intro p; simp [blocks]
  | cons c rest ih =>
    intro p
    obtain ⟨h1, h2⟩ := ih (configureBackend p c)
    constructor
    · rw [List.foldl_cons, h1]
      simp [configureBackend]
    · rw [List.foldl_cons, h2]
      simp [configureBackend, blocks]

theorem blocks_mem (cfgs : List BackendConfig) :
    ∀ (base x : Nat), x ∈ blocks base cfgs →
      base ≤ x ∧ x < base + cfgs.length := by
  induction cfgs with
  | nil => intro base x hx; simp [blocks] at hx
  | cons c rest ih =>
    intro base x hx
    simp only [blocks, List.mem_append] at hx
    rcases hx with hx | hx
    · have := List.eq_of_mem_replicate hx
      subst this
      simp
    · have h2 := ih (base + 1) x hx
      simp only [List.length_cons]
      omega

theorem blocks_decomp :
    ∀ (cfgs : List BackendConfig) (base i : Nat) (c : BackendConfig),
      cfgs[i]? = some c →
      ∃ pre post,
        blocks base cfgs =
          pre ++ List.replicate
            (if c.Weight = 0 then (1 : Int) else c.Weight).toNat (base + i)
            ++ post ∧
        (base + i) ∉ pre ∧ (base + i) ∉ post := by
  intro cfgs
  induction cfgs with
  | nil => intro base i c hc; simp at hc
  | cons d rest ih =>
    intro base i c hc
    cases i with
    | zero =>
      simp only [List.getElem?_cons_zero, Option.some.injEq] at hc
      subst hc
      refine ⟨[], blocks (base + 1) rest, ?_, ?_, ?_⟩
      · simp [blocks]
      · simp
      · intro hmem
        have := blocks_mem rest (base + 1) (base + 0) hmem
        omega
    | succ m =>
      simp only [List.getElem?_cons_succ] at hc
      obtain ⟨pre, post, hdec, hpre, hpost⟩ := ih (base + 1) m c hc
      refine ⟨List.replicate (if d.Weight = 0 then (1 : Int) else d.Weight).toNat base
          ++ pre, post, ?_, ?_, ?_⟩
      · have : base + 1 + m = base + (m + 1) := by omega
        rw [blocks, hdec, this]
        simp [List.append_assoc]
      · intro hmem
        rcases List.mem_append.mp hmem with hmem | hmem
        · have := List.eq_of_mem_replicate hmem
          omega
        · have : base + 1 + m = base + (m + 1) := by omega
          rw [← this] at hmem
          exact hpre hmem
      · have : base + 1 + m = base + (m + 1) := by omega
        rw [← this]
        exact hpost

/-- C9 (amended): the record of configuration entry i sits at pointer i, and
its slots form one consecutive block: exactly 1 slot when the configured
weight equals 0 (the decoded value of an absent field), exactly w slots when
w > 0, and 0 slots — the backend drops out of the pool entirely — when the
configured weight is negative, because the code defaults only a weight equal
to 0. -/
theorem c9_weight_slots (cfgs : List BackendConfig) (i : Nat)
    (c : BackendConfig) (hc : cfgs[i]? = some c) :
    (∃ pre post,
      (buildPool cfgs).backends =
        pre ++ List.replicate
          (if c.Weight = 0 then (1 : Int) else c.Weight).toNat i ++ post ∧
      i ∉ pre ∧ i ∉ post) ∧
    (buildPool cfgs).backends.count i =
      (if c.Weight = 0 then (1 : Int) else c.Weight).toNat ∧
    (c.Weight = 0 → (buildPool cfgs).backends.count i = 1) ∧
    (0 < c.Weight → ((buildPool cfgs).backends.count i : Int) = c.Weight) ∧
    (c.Weight < 0 → (buildPool cfgs).backends.count i = 0) := by
  have hfold := (foldl_configure cfgs { store := [], backends := [], current := 0 }).2
  have hslots : (buildPool cfgs).backends = blocks 0 cfgs := by
    simpa [buildPool] using hfold
  obtain ⟨pre, post, hdec, hpre, hpost⟩ := blocks_decomp cfgs 0 i c hc
  rw [Nat.zero_add] at hdec hpre hpost
  have hcount : (buildPool cfgs).backends.count i =
      (if c.Weight = 0 then (1 : Int) else c.Weight).toNat := by
    rw [hslots, hdec]
    rw [List.count_append, List.count_append]
    rw [List.count_eq_zero.mpr hpre, List.count_eq_zero.mpr hpost]
    simp [List.count_replicate]
  refine ⟨⟨pre, post, by rw [hslots]; exact hdec, hpre, hpost⟩, hcount, ?_, ?_, ?_⟩
  · intro hw; rw [hcount, hw]; rfl
  · intro hw
    rw [hcount]
    have hne : c.Weight ≠ 0 := by omega
    simp only [hne, if_neg, if_false]
    omega
  · intro hw
    rw [hcount]
    have hne : c.Weight ≠ 0 := by omega
    simp only [hne, if_neg, if_false]
    omega

theorem c9_weight_slots_witness :
    (([⟨"u1", "b1", 2⟩] : List BackendConfig)[0]? = some ⟨"u1", "b1", 2⟩) ∧
      (buildPool [⟨"u1", "b1", 2⟩]).backends.count 0 = 2 := by
  refine ⟨by decide, ?_⟩
  have h := (c9_weight_slots [⟨"u1", "b1", 2⟩] 0 ⟨"u1", "b1", 2⟩ (by decide)).2.1
  simpa using h

/-! ## C10: URL lookup and liveness marking -/

/-- C10: for a URL matching no backend, `GetBackend` returns none and
`MarkBackendStatus` leaves the pool entirely unchanged; for a URL with a
match, `GetBackend` returns the first matching slot's pointer and
`MarkBackendStatus` rewrites only that record's liveness flag — its name,
URL and all four counters are kept, every other record is untouched, and
the slot list and cursor are unchanged. -/
theorem c10_get_mark_frame (p : ServerPool) (u : String) (alive : Bool) :
    ((∀ ptr ∈ p.backends, urlOf p ptr ≠ u) →
      p.GetBackend u = none ∧ p.MarkBackendStatus u alive = p) ∧
    (∀ ptr, p.GetBackend u = some ptr →
      urlOf p ptr = u ∧
      (∃ pre post, p.backends = pre ++ ptr :: post ∧
        ∀ q ∈ pre, urlOf p q ≠ u) ∧
      (p.MarkBackendStatus u alive).backends = p.backends ∧
      (p.MarkBackendStatus u alive).current = p.current ∧
      (∀ t : Nat, t ≠ ptr →
        (p.MarkBackendStatus u alive).store[t]? = p.store[t]?) ∧
      (∀ b, p.store[ptr]? = some b →
        (p.MarkBackendStatus u alive).store[ptr]? =
          some { b with Alive := alive })) := by
  constructor
  · intro hno
    have hfind : p.backends.find? (fun ptr => urlOf p ptr == u) = none := by
      rw [List.find?_eq_none]
      intro x hx
      simpa using hno x hx
    constructor
    · exact hfind
    · unfold ServerPool.MarkBackendStatus
      rw [hfind]
  · intro ptr hget
    have hfind : p.backends.find? (fun q => urlOf p q == u) = some ptr := hget
    obtain ⟨hp, pre, post, hdec, hpre⟩ := List.find?_eq_some.mp hfind
    have hurl : urlOf p ptr = u := by simpa using hp
    have hmark : p.MarkBackendStatus u alive =
        p.updateStore ptr (fun b => b.SetAlive alive) := by
      unfold ServerPool.MarkBackendStatus
      rw [hfind]
    refine ⟨hurl, ⟨pre, post, hdec, ?_⟩, ?_, ?_, ?_, ?_⟩
    · intro q hq
      have := hpre q hq
      simpa using this
    · rw [hmark]; rfl
    · rw [hmark]; rfl
    · intro t ht
      rw [hmark]
      show (updateAt p.store ptr _)[t]? = p.store[t]?
      rw [updateAt_getElem?]
      exact if_neg ht
    · intro b hb
      rw [hmark]
      show (updateAt p.store ptr _)[ptr]? = _
      rw [updateAt_getElem?, if_pos rfl, hb]
      rfl

theorem c10_get_mark_frame_witness :
    poolS3.GetBackend "uA" = some 0 ∧
      urlOf poolS3 0 = "uA" ∧
      (poolS3.MarkBackendStatus "uA" false).backends = poolS3.backends := by
  have h := (c10_get_mark_frame poolS3 "uA" false).2 0 (by decide)
  exact ⟨by decide, h.1, h.2.2.1⟩

/-! ## C4: the passive circuit breaker -/

/-- C4: on every observed response for origin URL u resolving to backend
record b (the first URL match): a status ≥ 500 increments
`ConsecutiveFailures` (uint64 wraparound) and the backend is marked not
alive exactly when the post-increment value reaches 3, liveness being
otherwise unchanged; a status < 500 stores `ConsecutiveFailures = 0` and
leaves liveness and every other field unchanged. Records other than the
origin's, the slot list, and the cursor are never touched. -/
theorem c4_breaker (p : ServerPool) (u : String) (status : Nat) (ptr : Nat)
    (b : Backend) (hget : p.GetBackend u = some ptr)
    (hb : p.store[ptr]? = some b) :
    (500 ≤ status →
      (p.ModifyResponse u status).store[ptr]? =
        some { b with
          ConsecutiveFailures := addUint64 b.ConsecutiveFailures 1,
          Alive := if 3 ≤ addUint64 b.ConsecutiveFailures 1 then false
                   else b.Alive }) ∧
    (status < 500 →
      (p.ModifyResponse u status).store[ptr]? =
        some { b with ConsecutiveFailures := 0 }) ∧
    (∀ t : Nat, t ≠ ptr →
      (p.ModifyResponse u status).store[t]? = p.store[t]?) ∧
    (p.ModifyResponse u status).backends = p.backends ∧
    (p.ModifyResponse u status).current = p.current := by
  refine ⟨?_, ?_, ?_, ?_, ?_⟩
  · intro h500
    unfold ServerPool.ModifyResponse
    rw [if_pos h500, hget]
    show (updateAt p.store ptr _)[ptr]? = _
    rw [updateAt_getElem?, if_pos rfl, hb]
    by_cases hf : 3 ≤ addUint64 b.ConsecutiveFailures 1
    · simp [Backend.SetAlive, hf]
    · simp [Backend.SetAlive, hf]
  · intro hlt
    unfold ServerPool.ModifyResponse
    rw [if_neg (by omega), hget]
    show (updateAt p.store ptr _)[ptr]? = _
    rw [updateAt_getElem?, if_pos rfl, hb]
    rfl
  · intro t ht
    unfold ServerPool.ModifyResponse
    by_cases h500 : 500 ≤ status
    · rw [if_pos h500, hget]
      show (updateAt p.store ptr _)[t]? = p.store[t]?
      rw [updateAt_getElem?]
      exact if_neg ht
    · rw [if_neg h500, hget]
      show (updateAt p.store ptr _)[t]? = p.store[t]?
      rw [updateAt_getElem?]
      exact if_neg ht
  · unfold ServerPool.ModifyResponse
    by_cases h500 : 500 ≤ status
    · rw [if_pos h500, hget]; rfl
    · rw [if_neg h500, hget]; rfl
  · unfold ServerPool.ModifyResponse
    by_cases h500 : 500 ≤ status
    · rw [if_pos h500, hget]; rfl
    · rw [if_neg h500, hget]; rfl

theorem c4_breaker_witness :
    poolS3.GetBackend "uA" = some 0 ∧
      poolS3.store[0]? = some (mkBackend ⟨"uA", "A", 0⟩) ∧
      (poolS3.ModifyResponse "uA" 500).backends = poolS3.backends := by
  have h := c4_breaker poolS3 "uA" 500 0 (mkBackend ⟨"uA", "A", 0⟩)
    (by decide) (by decide)
  exact ⟨by decide, by decide, h.2.2.2.1⟩

/-! ## C6: round-robin selection -/

theorem rotate_surj (N next i : Nat) (hn : next < N) (hi : i < N) :
    ∃ k, k < N ∧ (next + k) % N = i := by
  rcases le_or_lt next i with hle | hlt
  · refine ⟨i - next, by omega, ?_⟩
    have : next + (i - next) = i := by omega
    rw [this, Nat.mod_eq_of_lt hi]
  · refine ⟨N + i - next, by omega, ?_⟩
    have : next + (N + i - next) = N + i := by omega
    rw [this, Nat.add_mod_left, Nat.mod_eq_of_lt hi]

theorem rotate_ne (N next j : Nat) (hn : next < N) (hj0 : 0 < j)
    (hjN : j < N) : (next + j) % N ≠ next := by
  rcases Nat.lt_or_ge (next + j) N with hlt | hge
  · rw [Nat.mod_eq_of_lt hlt]; omega
  · have h2 : next + j - N < N := by omega
    have heq : (next + j) % N = next + j - N := by
      rw [Nat.mod_eq_sub_mod hge, Nat.mod_eq_of_lt h2]
    omega

theorem scanAlive_some (p : ServerPool) (next : Nat) :
    ∀ (fuel j j0 idx : Nat), scanAlive p next j fuel = some (j0, idx) →
      j ≤ j0 ∧ j0 < j + fuel ∧
        idx = (next + j0) % p.backends.length ∧
        p.slotAlive idx = true ∧
        ∀ k, j ≤ k → k < j0 →
          p.slotAlive ((next + k) % p.backends.length) = false := by
  intro fuel
  induction fuel with
  | zero => intro j j0 idx hs; simp [scanAlive] at hs
  | succ n ih =>
    intro j j0 idx hs
    simp only [scanAlive] at hs
    by_cases ha : p.slotAlive ((next + j) % p.backends.length) = true
    · rw [if_pos ha] at hs
      obtain ⟨rfl, rfl⟩ : j = j0 ∧ (next + j) % p.backends.length = idx := by
        constructor <;> · injection hs with h1; cases h1; rfl
      exact ⟨Nat.le_refl j, by omega, rfl, ha, fun k hk1 hk2 => by omega⟩
    · rw [if_neg ha] at hs
      obtain ⟨h1, h2, h3, h4, h5⟩ := ih (j + 1) j0 idx hs
      refine ⟨by omega, by omega, h3, h4, ?_⟩
      intro k hk1 hk2
      rcases Nat.eq_or_lt_of_le hk1 with rfl | hlt
      · simpa using eq_false_of_ne_true ha
      · exact h5 k (by omega) hk2

theorem scanAlive_none (p : ServerPool) (next : Nat) :
    ∀ (fuel j : Nat), scanAlive p next j fuel = none →
      ∀ k, j ≤ k → k < j + fuel →
        p.slotAlive ((next + k) % p.backends.length) = false := by
  intro fuel
  induction fuel with
  | zero => intro j _ k hk1 hk2; omega
  | succ n ih =>
    intro j hs k hk1 hk2
    simp only [scanAlive] at hs
    by_cases ha : p.slotAlive ((next + j) % p.backends.length) = true
    · rw [if_pos ha] at hs; cases hs
    · rw [if_neg ha] at hs
      rcases Nat.eq_or_lt_of_le hk1 with rfl | hlt
      · simpa using eq_false_of_ne_true ha
      · exact ih (j + 1) hs k (by omega) (by omega)

theorem GetNextPeer_eq (p : ServerPool) :
    p.GetNextPeer =
      match scanAlive p (addUint64 p.current 1 % p.backends.length) 0
          p.backends.length with
      | some (j, idx) =>
        (some idx,
          if j ≠ 0 then { p with current := idx }
          else { p with current := addUint64 p.current 1 })
      | none => (none, { p with current := addUint64 p.current 1 }) := by
  unfold ServerPool.GetNextPeer
  rfl

/-- C6: `GetNextPeer` increments the cursor modulo 2^64, scans forward up to
N slots starting at `cursor mod N`, and returns the first live slot in scan
order; it returns none exactly when no slot holds a live backend (in which
case the pool keeps the incremented cursor); on success the cursor receives
the found slot index when it differs from the starting index and the
incremented value otherwise; the heap and the slot list are never
modified. -/
theorem c6_round_robin (p : ServerPool) (h : 0 < p.backends.length) :
    (p.GetNextPeer.2.store = p.store ∧
      p.GetNextPeer.2.backends = p.backends) ∧
    (p.GetNextPeer.1 = none ↔
      ∀ i, i < p.backends.length → p.slotAlive i = false) ∧
    (p.GetNextPeer.1 = none →
      p.GetNextPeer.2.current = addUint64 p.current 1) ∧
    (∀ idx, p.GetNextPeer.1 = some idx →
      p.slotAlive idx = true ∧
      (∃ j, j < p.backends.length ∧
        idx = (addUint64 p.current 1 % p.backends.length + j) %
          p.backends.length ∧
        ∀ k, k < j →
          p.slotAlive ((addUint64 p.current 1 % p.backends.length + k) %
            p.backends.length) = false) ∧
      p.GetNextPeer.2.current =
        (if idx = addUint64 p.current 1 % p.backends.length
         then addUint64 p.current 1 else idx)) := by
  have hnextN : addUint64 p.current 1 % p.backends.length <
      p.backends.length := Nat.mod_lt _ (by omega)
  rw [GetNextPeer_eq]
  cases hscan : scanAlive p (addUint64 p.current 1 % p.backends.length) 0
      p.backends.length with
  | none =>
    have hdead := scanAlive_none p _ _ _ hscan
    refine ⟨⟨rfl, rfl⟩, ⟨fun _ => ?_, fun _ => rfl⟩, fun _ => rfl, ?_⟩
    · intro i hi
      obtain ⟨k, hk, hrot⟩ :=
        rotate_surj p.backends.length _ i hnextN hi
      have := hdead k (by omega) (by omega)
      rwa [hrot] at this
    · intro idx hidx
      simp at hidx
  | some pair =>
    obtain ⟨j0, idx0⟩ := pair
    obtain ⟨-, hj0N, hidx0, halive, hbefore⟩ :=
      scanAlive_some p _ _ _ _ _ hscan
    rw [Nat.zero_add] at hj0N
    refine ⟨?_, ?_, ?_, ?_⟩
    · by_cases hj : j0 ≠ 0 <;> simp [hj]
    · constructor
      · intro hc
        by_cases hj : j0 ≠ 0 <;> simp [hj] at hc
      · intro hall
        rw [hidx0] at halive
        have hlt : (addUint64 p.current 1 % p.backends.length + j0) %
            p.backends.length < p.backends.length := Nat.mod_lt _ (by omega)
        have hdead := hall _ hlt
        rw [hdead] at halive
        cases halive
    · intro hc
      by_cases hj : j0 ≠ 0 <;> simp [hj] at hc
    · intro idx hidx
      have hidx' : idx = idx0 := by
        by_cases hj : j0 ≠ 0 <;> simp [hj] at hidx <;> omega
      subst hidx'
      refine ⟨halive, ⟨j0, hj0N, hidx0, fun k hk => hbefore k (by omega) hk⟩, ?_⟩
      by_cases hj : j0 = 0
      · subst hj
        rw [Nat.add_zero, Nat.mod_eq_of_lt hnextN] at hidx0
        simp [hidx0]
      · have hne : idx ≠ addUint64 p.current 1 % p.backends.length := by
          rw [hidx0]
          exact rotate_ne _ _ _ hnextN (by omega) hj0N
        simp [hj, hne]

theorem c6_round_robin_witness :
    0 < poolS3.backends.length ∧ poolS3.slotAlive 1 = true :=
  ⟨by decide,
    ((c6_round_robin poolS3 (by decide)).2.2.2 1 (by decide)).1⟩

/-! ## C7: least-connections selection -/

theorem lcScan_go (p : ServerPool) :
    ∀ (slots : List Nat) (s : Nat), ptrAlive p s = true →
      ∃ t, slots.foldl (lcStep p) (some s, ptrConns p s) =
          (some t, ptrConns p t) ∧
        ptrAlive p t = true ∧
        ptrConns p t ≤ ptrConns p s ∧
        (∀ q ∈ slots, ptrAlive p q = true → ptrConns p t ≤ ptrConns p q) ∧
        (t = s ∨ (ptrConns p t < ptrConns p s ∧
          ∃ l1 l2, slots = l1 ++ t :: l2 ∧
            ∀ q ∈ l1, ptrAlive p q = true → ptrConns p t < ptrConns p q)) := by
  intro slots
  induction slots with
  | nil =>
    intro s hs
    exact ⟨s, rfl, hs, le_refl _, by simp, Or.inl rfl⟩
  | cons a l ih =>
    intro s hs
    rw [List.foldl_cons]
    cases hsa : p.store[a]? with
    | none =>
      have hdead : ptrAlive p a = false := by simp [ptrAlive, hsa]
      have hstep : lcStep p (some s, ptrConns p s) a = (some s, ptrConns p s) := by
        simp [lcStep, hsa]
      rw [hstep]
      obtain ⟨t, h1, h2, h3, h4, h5⟩ := ih s hs
      refine ⟨t, h1, h2, h3, ?_, ?_⟩
      · intro q hq hqa
        rcases List.mem_cons.mp hq with rfl | hq
        · rw [hdead] at hqa; cases hqa
        · exact h4 q hq hqa
      · rcases h5 with rfl | ⟨hlt, l1, l2, hdec, hl1⟩
        · exact Or.inl rfl
        · refine Or.inr ⟨hlt, a :: l1, l2, by rw [hdec]; rfl, ?_⟩
          intro q hq hqa
          rcases List.mem_cons.mp hq with rfl | hq
          · rw [hdead] at hqa; cases hqa
          · exact hl1 q hq hqa
    | some ba =>
      by_cases hba : ba.IsAlive = true
      · have halivea : ptrAlive p a = true := by simp [ptrAlive, hsa, hba]
        have hconna : ptrConns p a = ba.ActiveConnections := by
          simp [ptrConns, hsa]
        by_cases hcmp : ba.ActiveConnections < ptrConns p s
        · have hstep : lcStep p (some s, ptrConns p s) a =
              (some a, ptrConns p a) := by
            simp only [lcStep, hsa]
            rw [if_neg (by simp [hba]), if_pos (Or.inr hcmp), hconna]
          rw [hstep]
          obtain ⟨t, h1, h2, h3, h4, h5⟩ := ih a halivea
          have htlt : ptrConns p t < ptrConns p s := by
            rw [hconna] at h3
            omega
          refine ⟨t, h1, h2, le_of_lt htlt, ?_, ?_⟩
          · intro q hq hqa
            rcases List.mem_cons.mp hq with rfl | hq
            · exact h3
            · exact h4 q hq hqa
          · rcases h5 with rfl | ⟨hlt, l1, l2, hdec, hl1⟩
            · exact Or.inr ⟨htlt, [], l, rfl, by simp⟩
            · refine Or.inr ⟨htlt, a :: l1, l2, by rw [hdec]; rfl, ?_⟩
              intro q hq hqa
              rcases List.mem_cons.mp hq with rfl | hq
              · exact hlt
              · exact hl1 q hq hqa
        · have hstep : lcStep p (some s, ptrConns p s) a =
              (some s, ptrConns p s) := by
            simp only [lcStep, hsa]
            rw [if_neg (by simp [hba]), if_neg (by simp [hcmp])]
          rw [hstep]
          obtain ⟨t, h1, h2, h3, h4, h5⟩ := ih s hs
          refine ⟨t, h1, h2, h3, ?_, ?_⟩
          · intro q hq hqa
            rcases List.mem_cons.mp hq with rfl | hq
            · rw [hconna]; omega
            · exact h4 q hq hqa
          · rcases h5 with rfl | ⟨hlt, l1, l2, hdec, hl1⟩
            · exact Or.inl rfl
            · refine Or.inr ⟨hlt, a :: l1, l2, by rw [hdec]; rfl, ?_⟩
              intro q hq hqa
              rcases List.mem_cons.mp hq with rfl | hq
              · rw [hconna]; omega
              · exact hl1 q hq hqa
      · have hdead : ptrAlive p a = false := by
          simp only [ptrAlive, hsa]
          exact eq_false_of_ne_true hba
        have hstep : lcStep p (some s, ptrConns p s) a = (some s, ptrConns p s) := by
          simp only [lcStep, hsa]
          rw [if_pos (eq_false_of_ne_true hba)]
        rw [hstep]
        obtain ⟨t, h1, h2, h3, h4, h5⟩ := ih s hs
        refine ⟨t, h1, h2, h3, ?_, ?_⟩
        · intro q hq hqa
          rcases List.mem_cons.mp hq with rfl | hq
          · rw [hdead] at hqa; cases hqa
          · exact h4 q hq hqa
        · rcases h5 with rfl | ⟨hlt, l1, l2, hdec, hl1⟩
          · exact Or.inl rfl
          · refine Or.inr ⟨hlt, a :: l1, l2, by rw [hdec]; rfl, ?_⟩
            intro q hq hqa
            rcases List.mem_cons.mp hq with rfl | hq
            · rw [hdead] at hqa; cases hqa
            · exact hl1 q hq hqa

theorem lcScan_spec (p : ServerPool) :
    ∀ (slots : List Nat) (m : Int),
      ((slots.foldl (lcStep p) (none, m)).1 = none ↔
        ∀ q ∈ slots, ptrAlive p q = false) ∧
      (∀ t, (slots.foldl (lcStep p) (none, m)).1 = some t →
        ptrAlive p t = true ∧
        (∀ q ∈ slots, ptrAlive p q = true → ptrConns p t ≤ ptrConns p q) ∧
        ∃ l1 l2, slots = l1 ++ t :: l2 ∧
          ∀ q ∈ l1, ptrAlive p q = true → ptrConns p t < ptrConns p q) := by
  intro slots
  induction slots with
  | nil => intro m; simp
  | cons a l ih =>
    intro m
    rw [List.foldl_cons]
    by_cases halivea : ptrAlive p a = true
    · obtain ⟨ba, hsa⟩ : ∃ ba, p.store[a]? = some ba := by
        unfold ptrAlive at halivea
        cases h : p.store[a]? with
        | none => rw [h] at halivea; cases halivea
        | some b => exact ⟨b, rfl⟩
      have hba : ba.IsAlive = true := by
        unfold ptrAlive at halivea
        rw [hsa] at halivea
        exact halivea
      have hstep : lcStep p (none, m) a = (some a, ptrConns p a) := by
        simp [lcStep, hsa, hba, ptrConns]
      rw [hstep]
      obtain ⟨t, h1, h2, h3, h4, h5⟩ := lcScan_go p l a halivea
      constructor
      · rw [h1]
        constructor
        · intro hc; cases hc
        · intro hall
          have := hall a (List.mem_cons_self a l)
          rw [halivea] at this
          cases this
      · intro t0 ht0
        rw [h1] at ht0
        injection ht0 with ht0
        subst ht0
        refine ⟨h2, ?_, ?_⟩
        · intro q hq hqa
          rcases List.mem_cons.mp hq with rfl | hq
          · exact h3
          · exact h4 q hq hqa
        · rcases h5 with rfl | ⟨hlt, l1, l2, hdec, hl1⟩
          · exact ⟨[], l, rfl, by simp⟩
          · refine ⟨a :: l1, l2, by rw [hdec]; rfl, ?_⟩
            intro q hq hqa
            rcases List.mem_cons.mp hq with rfl | hq
            · exact hlt
            · exact hl1 q hq hqa
    · have hdead : ptrAlive p a = false := eq_false_of_ne_true halivea
      have hstep : lcStep p (none, m) a = (none, m) := by
        unfold ptrAlive at hdead
        cases hsa : p.store[a]? with
        | none => simp [lcStep, hsa]
        | some ba =>
          rw [hsa] at hdead
          have hba : ba.IsAlive = false := hdead
          simp [lcStep, hsa, hba]
      rw [hstep]
      obtain ⟨ih1, ih2⟩ := ih m
      constructor
      · rw [ih1]
        constructor
        · intro hall q hq
          rcases List.mem_cons.mp hq with rfl | hq
          · exact hdead
          · exact hall q hq
        · intro hall q hq
          exact hall q (List.mem_cons_of_mem a hq)
      · intro t ht
        obtain ⟨h2, h3, l1, l2, hdec, hl1⟩ := ih2 t ht
        refine ⟨h2, ?_, a :: l1, l2, by rw [hdec]; rfl, ?_⟩
        · intro q hq hqa
          rcases List.mem_cons.mp hq with rfl | hq
          · rw [hdead] at hqa; cases hqa
          · exact h3 q hq hqa
        · intro q hq hqa
          rcases List.mem_cons.mp hq with rfl | hq
          · rw [hdead] at hqa; cases hqa
          · exact hl1 q hq hqa

theorem lcStep_stays_some (p : ServerPool) (acc : Option Nat × Int) (a : Nat)
    (h : acc.1 ≠ none) : (lcStep p acc a).1 ≠ none := by
  cases hsa : p.store[a]? with
  | none => simpa [lcStep, hsa] using h
  | some ba =>
    simp only [lcStep, hsa]
    by_cases hba : ba.IsAlive = false
    · rw [if_pos hba]; exact h
    · rw [if_neg hba]
      by_cases hc : acc.1 = none ∨ ba.ActiveConnections < acc.2
      · rw [if_pos hc]; simp
      · rw [if_neg hc]; exact h

theorem lcStep_min_le (p : ServerPool) (acc : Option Nat × Int) (a : Nat)
    (h : acc.1 ≠ none) : (lcStep p acc a).2 ≤ acc.2 := by
  cases hsa : p.store[a]? with
  | none => simp [lcStep, hsa]
  | some ba =>
    simp only [lcStep, hsa]
    by_cases hba : ba.IsAlive = false
    · rw [if_pos hba]
    · rw [if_neg hba]
      by_cases hc : acc.1 = none ∨ ba.ActiveConnections < acc.2
      · rw [if_pos hc]
        rcases hc with hc | hc
        · exact absurd hc h
        · exact le_of_lt hc
      · rw [if_neg hc]

theorem lc_dedup (p : ServerPool) :
    ∀ (slots : List Nat) (seen : List String) (acc : Option Nat × Int),
      (∀ s ∈ slots, ∀ t ∈ slots, urlOf p s = urlOf p t → s = t) →
      (∀ q ∈ slots, urlOf p q ∈ seen → ptrAlive p q = true →
        acc.1 ≠ none ∧ acc.2 ≤ ptrConns p q) →
      slots.foldl (lcStep p) acc =
        (distinctByUrl p slots seen).foldl (lcStep p) acc := by
  intro slots
  induction slots with
  | nil => intro seen acc _ _; rfl
  | cons a l ih =>
    intro seen acc hId hseen
    have hIdl : ∀ s ∈ l, ∀ t ∈ l, urlOf p s = urlOf p t → s = t :=
      fun s hs t ht => hId s (List.mem_cons_of_mem a hs) t (List.mem_cons_of_mem a ht)
    by_cases hain : urlOf p a ∈ seen
    · have hstep : lcStep p acc a = acc := by
        cases hsa : p.store[a]? with
        | none => simp [lcStep, hsa]
        | some ba =>
          by_cases hba : ba.IsAlive = true
          · have halive : ptrAlive p a = true := by simp [ptrAlive, hsa, hba]
            obtain ⟨hne, hle⟩ := hseen a (List.mem_cons_self a l) hain halive
            have hconn : ptrConns p a = ba.ActiveConnections := by
              simp [ptrConns, hsa]
            have hcond : ¬ (acc.1 = none ∨ ba.ActiveConnections < acc.2) := by
              rintro (hc | hc)
              · exact hne hc
              · rw [hconn] at hle; omega
            simp only [lcStep, hsa]
            rw [if_neg (by simp [hba]), if_neg hcond]
          · have hba2 : ba.IsAlive = false := eq_false_of_ne_true hba
            simp [lcStep, hsa, hba2]
      rw [List.foldl_cons, hstep]
      rw [distinctByUrl, if_pos hain]
      exact ih seen acc hIdl
        (fun q hq => hseen q (List.mem_cons_of_mem a hq))
    · rw [List.foldl_cons]
      rw [distinctByUrl, if_neg hain, List.foldl_cons]
      apply ih (urlOf p a :: seen) (lcStep p acc a) hIdl
      intro q hq hqseen hqalive
      rcases List.mem_cons.mp hqseen with hqa | hqs
      · have hqeq : q = a :=
          hId q (List.mem_cons_of_mem a hq) a (List.mem_cons_self a l) hqa
        subst hqeq
        obtain ⟨bq, hsq⟩ : ∃ bq, p.store[q]? = some bq := by
          unfold ptrAlive at hqalive
          cases h : p.store[q]? with
          | none => rw [h] at hqalive; cases hqalive
          | some b => exact ⟨b, rfl⟩
        have hbq : bq.IsAlive = true := by
          unfold ptrAlive at hqalive
          rw [hsq] at hqalive
          exact hqalive
        have hconn : ptrConns p q = bq.ActiveConnections := by
          simp [ptrConns, hsq]
        by_cases hc : acc.1 = none ∨ bq.ActiveConnections < acc.2
        · have hstep : lcStep p acc q = (some q, bq.ActiveConnections) := by
            simp only [lcStep, hsq]
            rw [if_neg (by simp [hbq]), if_pos hc]
          rw [hstep, hconn]
          exact ⟨by simp, le_refl _⟩
        · have hstep : lcStep p acc q = acc := by
            simp only [lcStep, hsq]
            rw [if_neg (by simp [hbq]), if_neg hc]
          rw [hstep, hconn]
          push_neg at hc
          exact ⟨hc.1, hc.2⟩
      · obtain ⟨hne, hle⟩ := hseen q (List.mem_cons_of_mem a hq) hqs hqalive
        refine ⟨lcStep_stays_some p acc a hne, ?_⟩
        exact le_trans (lcStep_min_le p acc a hne) hle

/-- C7: `GetNextPeerLeastConnections` returns none exactly when no backend
is alive; otherwise it returns a live backend whose `ActiveConnections` is
minimal among all live backends, and it is the first-seen such backend
(every earlier live slot has strictly more connections). Moreover, under the
pool invariant that slots sharing a URL share the backend record, iterating
the duplicated slot list gives the same result as iterating the distinct
backends deduplicated by URL in first-seen order. -/
theorem c7_least_connections (p : ServerPool)
    (hId : ∀ s ∈ p.backends, ∀ t ∈ p.backends,
      urlOf p s = urlOf p t → s = t) :
    (p.GetNextPeerLeastConnections = none ↔
      ∀ q ∈ p.backends, ptrAlive p q = false) ∧
    (∀ t, p.GetNextPeerLeastConnections = some t →
      ptrAlive p t = true ∧
      (∀ q ∈ p.backends, ptrAlive p q = true →
        ptrConns p t ≤ ptrConns p q) ∧
      ∃ l1 l2, p.backends = l1 ++ t :: l2 ∧
        ∀ q ∈ l1, ptrAlive p q = true → ptrConns p t < ptrConns p q) ∧
    p.GetNextPeerLeastConnections =
      (lcScan p (distinctByUrl p p.backends [])).1 := by
  obtain ⟨h1, h2⟩ := lcScan_spec p p.backends (-1)
  refine ⟨h1, h2, ?_⟩
  show (lcScan p p.backends).1 = _
  unfold lcScan
  rw [lc_dedup p p.backends [] (none, -1) hId (by simp)]

theorem c7_least_connections_witness :
    (∀ s ∈ poolW2.backends, ∀ t ∈ poolW2.backends,
      urlOf poolW2 s = urlOf poolW2 t → s = t) ∧
    poolW2.GetNextPeerLeastConnections =
      (lcScan poolW2 (distinctByUrl poolW2 poolW2.backends [])).1 :=
  ⟨by decide, (c7_least_connections poolW2 (by decide)).2.2⟩

/-! ## C8: revival only via the prober -/

theorem noRevive_refl (p : ServerPool) : noRevive p p :=
  fun _ b2 hb2 ha => ⟨b2, hb2, ha⟩

theorem noRevive_trans {p q r : ServerPool} (h1 : noRevive p q)
    (h2 : noRevive q r) : noRevive p r := by
  intro t b2 hb2 ha
  obtain ⟨b1, hb1, ha1⟩ := h2 t b2 hb2 ha
  exact h1 t b1 hb1 ha1

theorem noRevive_updateStore (p : ServerPool) (ptr : Nat)
    (f : Backend → Backend)
    (hf : ∀ b, (f b).Alive = true → b.Alive = true) :
    noRevive p (p.updateStore ptr f) := by
  intro t b2 hb2 ha
  simp only [ServerPool.updateStore] at hb2
  rw [updateAt_getElem?] at hb2
  by_cases ht : t = ptr
  · rw [if_pos ht] at hb2
    subst ht
    cases hsb : p.store[t]? with
    | none => rw [hsb] at hb2; cases hb2
    | some b =>
      rw [hsb, Option.map_some'] at hb2
      injection hb2 with hb2
      subst hb2
      exact ⟨b, rfl, hf b ha⟩
  · rw [if_neg ht] at hb2
    exact ⟨b2, hb2, ha⟩

theorem noRevive_setCur (p : ServerPool) (c : Nat) :
    noRevive p { p with current := c } :=
  fun _ b2 hb2 ha => ⟨b2, hb2, ha⟩

theorem noRevive_mark (p : ServerPool) (u : String) :
    noRevive p (p.MarkBackendStatus u false) := by
  cases hf : p.backends.find? (fun ptr => urlOf p ptr == u) with
  | some ptr =>
    simp only [ServerPool.MarkBackendStatus, hf]
    exact noRevive_updateStore p ptr _
      (fun b hb => by simp [Backend.SetAlive] at hb)
  | none =>
    simp only [ServerPool.MarkBackendStatus, hf]
    exact noRevive_refl p

theorem noRevive_modifyResponse (p : ServerPool) (u : String) (status : Nat) :
    noRevive p (p.ModifyResponse u status) := by
  unfold ServerPool.ModifyResponse
  by_cases h5 : 500 ≤ status
  · rw [if_pos h5]
    cases hf : p.GetBackend u with
    | some ptr =>
      apply noRevive_updateStore
      intro b hb
      by_cases h3 : 3 ≤ addUint64 b.ConsecutiveFailures 1
      · simp [h3, Backend.SetAlive] at hb
      · simpa [h3] using hb
    | none => exact noRevive_refl p
  · rw [if_neg h5]
    cases hf : p.GetBackend u with
    | some ptr =>
      apply noRevive_updateStore
      intro b hb
      simpa using hb
    | none => exact noRevive_refl p

theorem noRevive_errorMark (p : ServerPool) (u : String) :
    noRevive p (p.errorMark u) := by
  unfold ServerPool.errorMark
  cases hf : p.GetBackend u with
  | some ptr =>
    simp only
    exact noRevive_trans
      (noRevive_updateStore p ptr
        (fun b => { b with FailedRequests := addUint64 b.FailedRequests 1 })
        (fun b hb => hb))
      (noRevive_mark _ u)
  | none =>
    simp only
    exact noRevive_mark p u

theorem noRevive_getNextPeer (p : ServerPool) :
    noRevive p (p.GetNextPeer).2 := by
  rw [GetNextPeer_eq]
  cases hscan : scanAlive p (addUint64 p.current 1 % p.backends.length) 0
      p.backends.length with
  | none => exact noRevive_setCur p _
  | some pair =>
    obtain ⟨j, idx⟩ := pair
    show noRevive p (if j ≠ 0 then { p with current := idx }
      else { p with current := addUint64 p.current 1 })
    by_cases hj : j ≠ 0
    · rw [if_pos hj]
      exact noRevive_setCur p _
    · rw [if_neg hj]
      exact noRevive_setCur p _

theorem noRevive_proxyServe (behav : String → Outcome) :
    ∀ (fuel : Nat) (p : ServerPool) (u : String),
      noRevive p (proxyServe behav fuel p u).1 := by
  intro fuel
  induction fuel with
  | zero =>
    intro p u
    unfold proxyServe
    cases hb : behav u with
    | ok s => exact noRevive_modifyResponse p u s
    | fail => exact noRevive_errorMark p u
  | succ n ih =>
    intro p u
    unfold proxyServe
    cases hb : behav u with
    | ok s => exact noRevive_modifyResponse p u s
    | fail =>
      simp only
      cases hg : (p.errorMark u).GetNextPeer with
      | mk o p2 =>
        have hp2 : noRevive p p2 := by
          have h1 : p2 = ((p.errorMark u).GetNextPeer).2 := by rw [hg]
          rw [h1]
          exact noRevive_trans (noRevive_errorMark p u)
            (noRevive_getNextPeer _)
        cases o with
        | some idx =>
          simp only
          exact noRevive_trans hp2 (ih p2 _)
        | none => exact hp2

theorem noRevive_lbHandler (behav : String → Outcome) (p : ServerPool) :
    noRevive p (lbHandler behav p).1 := by
  unfold lbHandler
  cases hsel : p.GetNextPeerLeastConnections with
  | some ptr =>
    simp only
    refine noRevive_trans (q := incTotal (incActive p ptr) ptr) ?_ ?_
    · exact noRevive_trans
        (noRevive_updateStore p ptr
          (fun b =>
            { b with ActiveConnections := addInt64 b.ActiveConnections 1 })
          (fun b hb => hb))
        (noRevive_updateStore (incActive p ptr) ptr
          (fun b => { b with TotalRequests := addUint64 b.TotalRequests 1 })
          (fun b hb => hb))
    · refine noRevive_trans
        (noRevive_proxyServe behav RetryAttempts
          (incTotal (incActive p ptr) ptr)
          (urlOf (incTotal (incActive p ptr) ptr) ptr)) ?_
      exact noRevive_updateStore _ ptr
        (fun b =>
          { b with ActiveConnections := addInt64 b.ActiveConnections (-1) })
        (fun b hb => hb)
  | none => exact noRevive_refl p

theorem hcFold_getElem? (reach : String → Bool) :
    ∀ (slots : List Nat) (st : List Backend) (t : Nat),
      (slots.foldl (fun st2 ptr => updateAt st2 ptr
          (fun b => b.SetAlive (reach b.URL))) st)[t]? =
        if t ∈ slots then (st[t]?).map (fun b => b.SetAlive (reach b.URL))
        else st[t]? := by
  intro slots
  induction slots with
  | nil => intro st t; simp
  | cons a l ih =>
    intro st t
    rw [List.foldl_cons, ih]
    by_cases htl : t ∈ l
    · rw [if_pos htl, if_pos (List.mem_cons_of_mem a htl)]
      by_cases hta : t = a
      · subst hta
        rw [updateAt_getElem?, if_pos rfl]
        cases hsb : st[t]? with
        | none => rfl
        | some b => simp [Backend.SetAlive]
      · rw [updateAt_getElem?, if_neg hta]
    · rw [if_neg htl]
      by_cases hta : t = a
      · subst hta
        rw [if_pos (List.mem_cons_self t l)]
        rw [updateAt_getElem?, if_pos rfl]
      · rw [if_neg (fun hmem => by
          rcases List.mem_cons.mp hmem with h | h
          · exact hta h
          · exact htl h)]
        rw [updateAt_getElem?, if_neg hta]

theorem HealthCheck_getElem? (p : ServerPool) (reach : String → Bool)
    (t : Nat) :
    (p.HealthCheck reach).store[t]? =
      if t ∈ p.backends then
        (p.store[t]?).map (fun b => b.SetAlive (reach b.URL))
      else p.store[t]? := by
  simp only [ServerPool.HealthCheck]
  exact hcFold_getElem? reach p.backends p.store t

/-- C8: a backend can only be revived by the prober. If a pooled backend is
Dead before a system event and Alive after it, the event was a health-check
sweep whose TCP dial on the backend's URL succeeded; request servicing
(dispatch, retry error handling, and the breaker) can only kill. -/
theorem c8_revival_only_prober (e : SysEvent) (p : ServerPool) (s : Nat)
    (b b2 : Backend) (hs : s ∈ p.backends)
    (hb : p.store[s]? = some b) (hdead : b.Alive = false)
    (hb2 : (sysStep e p).store[s]? = some b2) (halive : b2.Alive = true) :
    ∃ reach, e = SysEvent.healthTick reach ∧ reach b.URL = true := by
  cases e with
  | request behav =>
    exfalso
    obtain ⟨b0, hb0, ha0⟩ := noRevive_lbHandler behav p s b2
      (by simpa [sysStep] using hb2) halive
    rw [hb] at hb0
    injection hb0 with hb0
    rw [← hb0] at ha0
    rw [hdead] at ha0
    cases ha0
  | healthTick reach =>
    refine ⟨reach, rfl, ?_⟩
    have hchar := HealthCheck_getElem? p reach s
    rw [if_pos hs, hb, Option.map_some'] at hchar
    simp only [sysStep] at hb2
    rw [hchar] at hb2
    injection hb2 with hb2
    rw [← hb2] at halive
    simpa [Backend.SetAlive] using halive

theorem c8_revival_only_prober_witness :
    ∃ reach, SysEvent.healthTick (fun _ : String => true) =
        SysEvent.healthTick reach ∧
      reach (⟨"A", "uA", false, 0, 0, 0, 0⟩ : Backend).URL = true :=
  c8_revival_only_prober (SysEvent.healthTick (fun _ => true))
    (poolS3.MarkBackendStatus "uA" false) 0
    ⟨"A", "uA", false, 0, 0, 0, 0⟩ ⟨"A", "uA", true, 0, 0, 0, 0⟩
    (by decide) (by decide) (by decide) (by decide) (by decide)

/-! ## C5: active-connections accounting -/

theorem wrap64_eq_self (x : Int) (h1 : -(2 ^ 63) ≤ x) (h2 : x < 2 ^ 63) :
    wrap64 x = x := by
  unfold wrap64
  have h3 : (0 : Int) ≤ x + 2 ^ 63 := by omega
  have h4 : x + 2 ^ 63 < 2 ^ 64 := by omega
  rw [Int.emod_eq_of_lt h3 h4]
  omega

theorem acEq_refl (p : ServerPool) : acEq p p := fun _ => rfl

theorem acEq_trans {p q r : ServerPool} (h1 : acEq p q) (h2 : acEq q r) :
    acEq p r := fun t => (h2 t).trans (h1 t)

theorem acEq_updateStore (p : ServerPool) (ptr : Nat) (f : Backend → Backend)
    (hf : ∀ b, (f b).ActiveConnections = b.ActiveConnections) :
    acEq p (p.updateStore ptr f) := by
  intro t
  simp only [ServerPool.updateStore]
  rw [updateAt_getElem?]
  by_cases ht : t = ptr
  · rw [if_pos ht]
    subst ht
    cases hsb : p.store[t]? with
    | none => rfl
    | some b => simp [hf b]
  · rw [if_neg ht]

theorem acEq_mark (p : ServerPool) (u : String) (alive : Bool) :
    acEq p (p.MarkBackendStatus u alive) := by
  cases hf : p.backends.find? (fun ptr => urlOf p ptr == u) with
  | some ptr =>
    simp only [ServerPool.MarkBackendStatus, hf]
    exact acEq_updateStore p ptr _ (fun b => rfl)
  | none =>
    simp only [ServerPool.MarkBackendStatus, hf]
    exact acEq_refl p

theorem acEq_modifyResponse (p : ServerPool) (u : String) (status : Nat) :
    acEq p (p.ModifyResponse u status) := by
  unfold ServerPool.ModifyResponse
  by_cases h5 : 500 ≤ status
  · rw [if_pos h5]
    cases hf : p.GetBackend u with
    | some ptr =>
      apply acEq_updateStore
      intro b
      by_cases h3 : 3 ≤ addUint64 b.ConsecutiveFailures 1
      · simp [h3, Backend.SetAlive]
      · simp [h3]
    | none => exact acEq_refl p
  · rw [if_neg h5]
    cases hf : p.GetBackend u with
    | some ptr => exact acEq_updateStore p ptr _ (fun b => rfl)
    | none => exact acEq_refl p

theorem acEq_errorMark (p : ServerPool) (u : String) :
    acEq p (p.errorMark u) := by
  unfold ServerPool.errorMark
  cases hf : p.GetBackend u with
  | some ptr =>
    simp only
    exact acEq_trans
      (acEq_updateStore p ptr
        (fun b => { b with FailedRequests := addUint64 b.FailedRequests 1 })
        (fun b => rfl))
      (acEq_mark _ u false)
  | none =>
    simp only
    exact acEq_mark p u false

theorem acEq_getNextPeer (p : ServerPool) : acEq p (p.GetNextPeer).2 := by
  rw [GetNextPeer_eq]
  cases hscan : scanAlive p (addUint64 p.current 1 % p.backends.length) 0
      p.backends.length with
  | none => exact fun _ => rfl
  | some pair =>
    obtain ⟨j, idx⟩ := pair
    show acEq p (if j ≠ 0 then { p with current := idx }
      else { p with current := addUint64 p.current 1 })
    by_cases hj : j ≠ 0
    · rw [if_pos hj]; exact fun _ => rfl
    · rw [if_neg hj]; exact fun _ => rfl

theorem acEq_proxyServe (behav : String → Outcome) :
    ∀ (fuel : Nat) (p : ServerPool) (u : String),
      acEq p (proxyServe behav fuel p u).1 := by
  intro fuel
  induction fuel with
  | zero =>
    intro p u
    unfold proxyServe
    cases hb : behav u with
    | ok s => exact acEq_modifyResponse p u s
    | fail => exact acEq_errorMark p u
  | succ n ih =>
    intro p u
    unfold proxyServe
    cases hb : behav u with
    | ok s => exact acEq_modifyResponse p u s
    | fail =>
      simp only
      cases hg : (p.errorMark u).GetNextPeer with
      | mk o p2 =>
        have hp2 : acEq p p2 := by
          have h1 : p2 = ((p.errorMark u).GetNextPeer).2 := by rw [hg]
          rw [h1]
          exact acEq_trans (acEq_errorMark p u) (acEq_getNextPeer _)
        cases o with
        | some idx =>
          simp only
          exact acEq_trans hp2 (ih p2 _)
        | none => exact hp2

theorem acEq_proxyServeTrace (behav : String → Outcome) :
    ∀ (fuel : Nat) (p : ServerPool) (u : String),
      ∀ q ∈ proxyServeTrace behav fuel p u, acEq p q := by
  intro fuel
  induction fuel with
  | zero =>
    intro p u q hq
    unfold proxyServeTrace at hq
    cases hb : behav u with
    | ok s =>
      rw [hb] at hq
      simp only [List.mem_singleton] at hq
      subst hq
      exact acEq_modifyResponse p u s
    | fail =>
      rw [hb] at hq
      simp only [List.mem_singleton] at hq
      subst hq
      exact acEq_errorMark p u
  | succ n ih =>
    intro p u q hq
    unfold proxyServeTrace at hq
    cases hb : behav u with
    | ok s =>
      rw [hb] at hq
      simp only [List.mem_singleton] at hq
      subst hq
      exact acEq_modifyResponse p u s
    | fail =>
      rw [hb] at hq
      simp only at hq
      cases hg : (p.errorMark u).GetNextPeer with
      | mk o p2 =>
        rw [hg] at hq
        have hp1 : acEq p (p.errorMark u) := acEq_errorMark p u
        have hp2 : acEq p p2 := by
          have h1 : p2 = ((p.errorMark u).GetNextPeer).2 := by rw [hg]
          rw [h1]
          exact acEq_trans hp1 (acEq_getNextPeer _)
        cases o with
        | some idx =>
          simp only [List.mem_cons] at hq
          rcases hq with rfl | rfl | hq
          · exact hp1
          · exact hp2
          · exact acEq_trans hp2 (ih p2 _ q hq)
        | none =>
          simp only [List.mem_cons, List.not_mem_nil, or_false] at hq
          rcases hq with rfl | rfl
          · exact hp1
          · exact hp2

theorem updateAt_mem (l : List Backend) (i : Nat) (f : Backend → Backend)
    (b2 : Backend) (h : b2 ∈ updateAt l i f) :
    b2 ∈ l ∨ ∃ b, l[i]? = some b ∧ b2 = f b := by
  induction l generalizing i with
  | nil => simp [updateAt] at h
  | cons a rest ih =>
    cases i with
    | zero =>
      simp only [updateAt, List.mem_cons] at h
      rcases h with rfl | h
      · exact Or.inr ⟨a, by simp, rfl⟩
      · exact Or.inl (List.mem_cons_of_mem a h)
    | succ n =>
      simp only [updateAt, List.mem_cons] at h
      rcases h with rfl | h
      · exact Or.inl (List.mem_cons_self _ _)
      · rcases ih n h with h | ⟨b, hb, rfl⟩
        · exact Or.inl (List.mem_cons_of_mem a h)
        · exact Or.inr ⟨b, by simpa using hb, rfl⟩

theorem acEq_nonneg (pbase q : ServerPool) (h : acEq pbase q)
    (hn : ∀ b ∈ pbase.store, 0 ≤ b.ActiveConnections) :
    ∀ b2 ∈ q.store, 0 ≤ b2.ActiveConnections := by
  intro b2 hb2
  obtain ⟨t, ht⟩ := List.mem_iff_getElem?.mp hb2
  have hmap := h t
  rw [ht, Option.map_some'] at hmap
  cases hp : pbase.store[t]? with
  | none => rw [hp] at hmap; cases hmap
  | some b =>
    rw [hp, Option.map_some'] at hmap
    injection hmap with hmap
    rw [hmap]
    exact hn b (List.mem_iff_getElem?.mpr ⟨t, hp⟩)

/-- C5: `ActiveConnections` accounting over one request. Starting from a pool
whose connection counters are nonnegative (and small enough not to overflow
an int64), (1) after the request completes — success or final failure — every
backend's `ActiveConnections` is exactly what it was before: only the
originally selected peer was incremented and its scoped decrement fired
exactly once; (2) every pool state observable while the request is serviced
has all counters ≥ 0; (3) no state inside the dispatch/retry path changes any
`ActiveConnections` at all — in particular a replacement peer used during a
retry is never counted. -/
theorem c5_active_connections (behav : String → Outcome) (p : ServerPool)
    (hAC : ∀ b ∈ p.store, 0 ≤ b.ActiveConnections ∧
      b.ActiveConnections ≤ 2 ^ 63 - 2) :
    acEq p (lbHandler behav p).1 ∧
    (∀ q ∈ lbTrace behav p, ∀ b ∈ q.store, 0 ≤ b.ActiveConnections) ∧
    (∀ ptr, p.GetNextPeerLeastConnections = some ptr →
      ∀ q ∈ proxyServeTrace behav RetryAttempts
          (incTotal (incActive p ptr) ptr)
          (urlOf (incTotal (incActive p ptr) ptr) ptr),
        acEq (incTotal (incActive p ptr) ptr) q) := by
  cases hsel : p.GetNextPeerLeastConnections with
  | none =>
    have hfin : (lbHandler behav p).1 = p := by simp [lbHandler, hsel]
    have htr : lbTrace behav p = [p] := by simp [lbTrace, hsel]
    refine ⟨by rw [hfin]; exact acEq_refl p, ?_,
      fun ptr0 _ q hq => acEq_proxyServeTrace behav RetryAttempts _ _ q hq⟩
    intro q hq
    rw [htr] at hq
    simp only [List.mem_singleton] at hq
    subst hq
    exact fun b hb => (hAC b hb).1
  | some ptr =>
    have hfin : (lbHandler behav p).1 =
        decActive (proxyServe behav RetryAttempts
          (incTotal (incActive p ptr) ptr)
          (urlOf (incTotal (incActive p ptr) ptr) ptr)).1 ptr := by
      simp [lbHandler, hsel]
    have htr : lbTrace behav p =
        p :: incActive p ptr :: incTotal (incActive p ptr) ptr ::
          proxyServeTrace behav RetryAttempts
            (incTotal (incActive p ptr) ptr)
            (urlOf (incTotal (incActive p ptr) ptr) ptr)
          ++ [(lbHandler behav p).1] := by
      simp [lbTrace, hsel]
    have hp2ne : ∀ t, t ≠ ptr →
        (incTotal (incActive p ptr) ptr).store[t]? = p.store[t]? := by
      intro t ht
      simp only [incTotal, incActive, ServerPool.updateStore]
      rw [updateAt_getElem?, if_neg ht, updateAt_getElem?, if_neg ht]
    have hp2some : ∀ b, p.store[ptr]? = some b →
        ((incTotal (incActive p ptr) ptr).store[ptr]?).map
            Backend.ActiveConnections =
          some (addInt64 b.ActiveConnections 1) := by
      intro b hb
      simp only [incTotal, incActive, ServerPool.updateStore]
      rw [updateAt_getElem?, if_pos rfl, updateAt_getElem?, if_pos rfl, hb]
      simp
    have hp2none : p.store[ptr]? = none →
        (incTotal (incActive p ptr) ptr).store[ptr]? = none := by
      intro hb
      simp only [incTotal, incActive, ServerPool.updateStore]
      rw [updateAt_getElem?, if_pos rfl, updateAt_getElem?, if_pos rfl, hb]
      rfl
    have hacr : acEq (incTotal (incActive p ptr) ptr)
        (proxyServe behav RetryAttempts
          (incTotal (incActive p ptr) ptr)
          (urlOf (incTotal (incActive p ptr) ptr) ptr)).1 :=
      acEq_proxyServe behav RetryAttempts _ _
    have hconj1 : acEq p (lbHandler behav p).1 := by
      intro t
      rw [hfin]
      by_cases ht : t = ptr
      · subst ht
        cases hb : p.store[t]? with
        | none =>
          have h2 := hp2none hb
          have h3 := hacr t
          rw [h2] at h3
          simp only [Option.map_none'] at h3
          have h4 : (proxyServe behav RetryAttempts
              (incTotal (incActive p t) t)
              (urlOf (incTotal (incActive p t) t) t)).1.store[t]? = none := by
            cases hx : (proxyServe behav RetryAttempts
                (incTotal (incActive p t) t)
                (urlOf (incTotal (incActive p t) t) t)).1.store[t]? with
            | none => rfl
            | some bx => rw [hx, Option.map_some'] at h3; cases h3
          simp only [decActive, ServerPool.updateStore]
          rw [updateAt_getElem?, if_pos rfl, h4]
          rfl
        | some b =>
          have hmem : b ∈ p.store := List.mem_iff_getElem?.mpr ⟨t, hb⟩
          obtain ⟨hge, hle⟩ := hAC b hmem
          have hinc : addInt64 b.ActiveConnections 1 =
              b.ActiveConnections + 1 := by
            unfold addInt64
            exact wrap64_eq_self _ (by omega) (by omega)
          have h2 := hp2some b hb
          have h3 := hacr t
          rw [h2] at h3
          obtain ⟨b1, hb1, hacb1⟩ : ∃ b1,
              (proxyServe behav RetryAttempts
                (incTotal (incActive p t) t)
                (urlOf (incTotal (incActive p t) t) t)).1.store[t]? = some b1 ∧
              b1.ActiveConnections = addInt64 b.ActiveConnections 1 := by
            cases hx : (proxyServe behav RetryAttempts
                (incTotal (incActive p t) t)
                (urlOf (incTotal (incActive p t) t) t)).1.store[t]? with
            | none => rw [hx] at h3; cases h3
            | some bx =>
              rw [hx, Option.map_some'] at h3
              injection h3 with h3
              exact ⟨bx, rfl, h3⟩
          have hdec : addInt64 b1.ActiveConnections (-1) =
              b.ActiveConnections := by
            rw [hacb1, hinc]
            unfold addInt64
            have hsum : b.ActiveConnections + 1 + -1 = b.ActiveConnections := by
              omega
            rw [hsum]
            exact wrap64_eq_self _ (by omega) (by omega)
          simp only [decActive, ServerPool.updateStore]
          rw [updateAt_getElem?, if_pos rfl, hb1]
          simp [hdec]
      · have h1 : (decActive (proxyServe behav RetryAttempts
            (incTotal (incActive p ptr) ptr)
            (urlOf (incTotal (incActive p ptr) ptr) ptr)).1 ptr).store[t]? =
            (proxyServe behav RetryAttempts
              (incTotal (incActive p ptr) ptr)
              (urlOf (incTotal (incActive p ptr) ptr) ptr)).1.store[t]? := by
          simp only [decActive, ServerPool.updateStore]
          rw [updateAt_getElem?, if_neg ht]
        rw [h1]
        rw [hacr t, hp2ne t ht]
    refine ⟨hconj1, ?_,
      fun ptr0 _ q hq => acEq_proxyServeTrace behav RetryAttempts _ _ q hq⟩
    have hnn : ∀ b ∈ p.store, 0 ≤ b.ActiveConnections :=
      fun b hb => (hAC b hb).1
    have hnn1 : ∀ b2 ∈ (incActive p ptr).store, 0 ≤ b2.ActiveConnections := by
      intro b2 hb2
      simp only [incActive, ServerPool.updateStore] at hb2
      rcases updateAt_mem p.store ptr _ b2 hb2 with h | ⟨b, hbp, rfl⟩
      · exact hnn b2 h
      · have hmem : b ∈ p.store := List.mem_iff_getElem?.mpr ⟨ptr, hbp⟩
        obtain ⟨hge, hle⟩ := hAC b hmem
        have hinc : addInt64 b.ActiveConnections 1 =
            b.ActiveConnections + 1 := by
          unfold addInt64
          exact wrap64_eq_self _ (by omega) (by omega)
        show 0 ≤ addInt64 b.ActiveConnections 1
        rw [hinc]
        omega
    have hnn2 : ∀ b2 ∈ (incTotal (incActive p ptr) ptr).store,
        0 ≤ b2.ActiveConnections := by
      intro b2 hb2
      simp only [incTotal, ServerPool.updateStore] at hb2
      rcases updateAt_mem (incActive p ptr).store ptr _ b2 hb2 with
        h | ⟨b, hbp, rfl⟩
      · exact hnn1 b2 h
      · have hmem : b ∈ (incActive p ptr).store :=
          List.mem_iff_getElem?.mpr ⟨ptr, hbp⟩
        exact hnn1 b hmem
    intro q hq
    rw [htr] at hq
    rcases List.mem_cons.mp hq with rfl | hq
    · exact hnn
    rcases List.mem_cons.mp hq with rfl | hq
    · exact hnn1
    rcases List.mem_cons.mp hq with rfl | hq
    · exact hnn2
    rcases List.mem_append.mp hq with hq | hq
    · exact acEq_nonneg _ q
        (acEq_proxyServeTrace behav RetryAttempts _ _ q hq) hnn2
    · have hq2 : q = (lbHandler behav p).1 := by simpa using hq
      subst hq2
      exact acEq_nonneg p _ hconj1 hnn

theorem c5_active_connections_witness :
    (∀ b ∈ poolS3.store, 0 ≤ b.ActiveConnections ∧
      b.ActiveConnections ≤ 2 ^ 63 - 2) ∧
    acEq poolS3 (lbHandler behavS3 poolS3).1 :=
  ⟨by decide, (c5_active_connections behavS3 poolS3 (by decide)).1⟩
